import Mathlib

/-!
# Verification of the paper-trading portfolio system

Shallow embedding, in Lean 4, of the core components of the
chatgpt-microcap-experiment repository:

* `portfolio_service.py` — the portfolio ledger (`PortfolioService`):
  cash balance, holdings, transaction log, `buy_stock`, `sell_stock`,
  `_update_holdings_after_buy`, `_update_holdings_after_sell`,
  `get_cash_balance`.
* `ai_predictor_service.py` — the budget-constrained order sizer
  (`_apply_share_reduction_logic`).
* `app.py` / `app1.py` — the multi-API quote resolver
  (`MultiAPIStockService.get_stock_quote`) and the time-boxed quote cache
  (`get_cached_quote`).
* `scheduler.py` — the stop-loss evaluator (`check_stop_losses`).

Currency amounts and share quantities are embedded as rationals (`ℚ`):
Python stores them as floats parsed from CSV, and all the arithmetic the
claims are about (sums, differences, products, one weighted-average
division) is exact on the values appearing in the claims.  The CSV files
are embedded as in-memory state threaded through the operations; the
external world (market-data adapters, the clock) is passed in as explicit
parameters.
-/

namespace Microcap

/-- Python's `str.upper()` as the ledger applies it to tickers: uppercase
every character.  (Lean's own `String.toUpper` is the same map over the
characters; the explicit list form is used so that concrete instances
reduce inside the kernel.) -/
def pyUpper (s : String) : String :=
  ⟨s.data.map Char.toUpper⟩

/-- A row of `holdings.csv` as parsed by `PortfolioService.get_holdings`:
ticker, quantity, average cost and last computed market value. -/
structure Holding where
  ticker : String
  quantity : ℚ
  average_cost : ℚ
  total_market_value : ℚ
  deriving DecidableEq, Repr

/-- A row of `transactions.csv` as written by `PortfolioService._add_transaction`.
The CSV flattens the two variants into one row whose unused columns are
empty strings; here they are the two constructors.  A buy row carries
`date, ticker, quantity, buy_price, total, reason, stop_price`; a sell row
carries `ticker, reason, sell_quantity, sell_price, gain_loss`.
Timestamps are irrelevant to every claim and are omitted. -/
inductive Txn where
  | buy (ticker : String) (quantity : ℚ) (buy_price : ℚ) (total : ℚ)
      (reason : String) (stop_price : Option ℚ)
  | sell (ticker : String) (sell_quantity : ℚ) (sell_price : ℚ)
      (gain_loss : ℚ) (reason : String)
  deriving DecidableEq, Repr

/-- The durable state owned by `PortfolioService`: `cash.csv` (which may not
exist yet, hence `Option`), `holdings.csv` and `transactions.csv`. -/
structure LedgerState where
  cash : Option ℚ
  holdings : List Holding
  transactions : List Txn
  deriving DecidableEq, Repr

/-- A fresh data directory: no cash record, no holdings, no transactions. -/
def LedgerState.fresh : LedgerState :=
  { cash := none, holdings := [], transactions := [] }

/-- `PortfolioService.get_cash_balance`: read `cash.csv`; when the file is
missing (or unreadable) write the default balance 10000.00 and return it.
Returns the balance together with the possibly-initialized state. -/
def get_cash_balance (s : LedgerState) : ℚ × LedgerState :=
  match s.cash with
  | some c => (c, s)
  | none => (10000, { s with cash := some 10000 })

/-- The cash balance a read would observe on state `s`. -/
def cashValue (s : LedgerState) : ℚ :=
  (get_cash_balance s).1

/-- The Python buy path stores `stop_price if stop_price else ''` in the
transaction row: `None` and the falsy value `0.0` both become the empty
column, every other value is kept. -/
def normStop (stop_price : Option ℚ) : Option ℚ :=
  match stop_price with
  | none => none
  | some v => if v = 0 then none else some v

/-- `PortfolioService._update_holdings_after_buy`: find the first holding
with the given (already uppercased) ticker; if present, replace it in place
with the weighted-average-cost update, otherwise append a new holding with
`average_cost = price`. -/
def update_holdings_after_buy :
    List Holding → String → ℚ → ℚ → List Holding
  | [], ticker, quantity, price =>
      [{ ticker := ticker, quantity := quantity, average_cost := price,
         total_market_value := quantity * price }]
  | h :: rest, ticker, quantity, price =>
      if h.ticker = ticker then
        { ticker := ticker,
          quantity := h.quantity + quantity,
          average_cost :=
            (h.quantity * h.average_cost + quantity * price) /
              (h.quantity + quantity),
          total_market_value := (h.quantity + quantity) * price } :: rest
      else
        h :: update_holdings_after_buy rest ticker quantity price

/-- `PortfolioService._update_holdings_after_sell`: at the first holding with
the given ticker, subtract the sold quantity; drop the holding entirely when
the new quantity is ≤ 0, otherwise keep it with the same average cost.
The Python loop `break`s after the first match. -/
def update_holdings_after_sell :
    List Holding → String → ℚ → List Holding
  | [], _, _ => []
  | h :: rest, ticker, quantity =>
      if h.ticker = ticker then
        let new_quantity := h.quantity - quantity
        if new_quantity ≤ 0 then rest
        else
          { h with quantity := new_quantity,
                   total_market_value := new_quantity * h.average_cost } :: rest
      else
        h :: update_holdings_after_sell rest ticker quantity

/-- First holding carrying the given ticker, as the linear scans in
`sell_stock` and `_update_holdings_after_buy` find it. -/
def findHolding (holdings : List Holding) (ticker : String) : Option Holding :=
  holdings.find? (fun h => h.ticker = ticker)

/-- `PortfolioService.buy_stock`.  Raises (models: returns `Except.error`)
when `quantity*price` exceeds the current cash balance; otherwise debits
cash, appends one Buy transaction (ticker uppercased) and upserts the
holding.  The `ℚ` payload of `Except.ok` is the remaining cash reported in
the result dict.  Note that `get_cash_balance` runs before the funds check,
so a fresh ledger materializes the 10000.00 default even on failure (the
observable balance is unchanged). -/
def buy_stock (ticker : String) (quantity price : ℚ) (reason : String)
    (stop_price : Option ℚ) (s : LedgerState) :
    Except String ℚ × LedgerState :=
  let total_cost := quantity * price
  let current_cash := (get_cash_balance s).1
  let s1 := (get_cash_balance s).2
  if total_cost > current_cash then
    (Except.error "Insufficient funds", s1)
  else
    (Except.ok (current_cash - total_cost),
      { cash := some (current_cash - total_cost),
        transactions := s1.transactions ++
          [Txn.buy (pyUpper ticker) quantity price total_cost reason
            (normStop stop_price)],
        holdings :=
          update_holdings_after_buy s1.holdings (pyUpper ticker) quantity price })

/-- `PortfolioService.sell_stock`.  Raises when no holding carries the
uppercased ticker, or when `quantity` exceeds the holding's quantity;
otherwise credits cash with `quantity*price`, appends one Sell transaction
with `gain_loss = quantity*price - quantity*average_cost` and updates the
holding.  The `ℚ` payload of `Except.ok` is the gain/loss.  Both error
paths return before any state is touched. -/
def sell_stock (ticker : String) (quantity price : ℚ) (reason : String)
    (s : LedgerState) : Except String ℚ × LedgerState :=
  let ticker_upper := (pyUpper ticker)
  match findHolding s.holdings ticker_upper with
  | none => (Except.error "No holdings found", s)
  | some holding =>
      if quantity > holding.quantity then
        (Except.error "Cannot sell", s)
      else
        let total_proceeds := quantity * price
        let gain_loss := total_proceeds - quantity * holding.average_cost
        let current_cash := (get_cash_balance s).1
        let s1 := (get_cash_balance s).2
        (Except.ok gain_loss,
          { cash := some (current_cash + total_proceeds),
            transactions := s1.transactions ++
              [Txn.sell ticker_upper quantity price gain_loss reason],
            holdings :=
              update_holdings_after_sell s1.holdings ticker_upper quantity })

/-- One call into the buy/sell interface of the ledger. -/
inductive Call where
  | buy (ticker : String) (quantity price : ℚ) (reason : String)
      (stop_price : Option ℚ)
  | sell (ticker : String) (quantity price : ℚ) (reason : String)
  deriving DecidableEq, Repr

/-- State reached after one call (errors leave the returned state as the
operation returned it). -/
def applyCall (c : Call) (s : LedgerState) : LedgerState :=
  match c with
  | Call.buy t q p r sp => (buy_stock t q p r sp s).2
  | Call.sell t q p r => (sell_stock t q p r s).2

/-- State reached after a sequence of buy/sell calls. -/
def runCalls (cs : List Call) (s : LedgerState) : LedgerState :=
  cs.foldl (fun st c => applyCall c st) s

/-- Calls with positive quantity and nonnegative price — the inputs the web
layer lets through to the ledger. -/
def validCall : Call → Prop
  | Call.buy _ q p _ _ => 0 < q ∧ 0 ≤ p
  | Call.sell _ q p _ => 0 < q ∧ 0 ≤ p

instance : DecidablePred validCall := by
  intro c
  cases c <;> exact instDecidableAnd

/-!
## Order sizer — `AIStockPredictorService._apply_share_reduction_logic`

A proposed buy order carries a quantity and an effective price: the Python
code reads `buy_rec.get('current_price', buy_rec.get('buy_price', 0))` at
every use, so the two dict keys collapse to a single `price` field here.
Quantities are Python ints (`ℤ`): the loop only ever decrements entries
that are `> 0`.
-/

/-- One proposed buy order, as consumed by the share-reduction loop. -/
structure BuyRec where
  ticker : String
  price : ℚ
  quantity : ℤ
  deriving DecidableEq, Repr

/-- Cost of one order: `price * quantity`. -/
def recCost (r : BuyRec) : ℚ :=
  r.price * (r.quantity : ℚ)

/-- Total cost of a batch of orders (`Σ price_i * quantity_i`). -/
def totalCost (rs : List BuyRec) : ℚ :=
  (rs.map recCost).sum

/-- One full reduction pass: every order with `quantity > 0` loses exactly
one unit, the rest are untouched. -/
def reduceStep (rs : List BuyRec) : List BuyRec :=
  rs.map (fun r => if 0 < r.quantity then { r with quantity := r.quantity - 1 } else r)

/-- `reductions_made` of a pass: some order still had `quantity > 0`. -/
def anyPositive (rs : List BuyRec) : Bool :=
  rs.any (fun r => 0 < r.quantity)

/-- The `while True` reduction loop.  Each iteration recomputes the total;
stops when the total is within budget, or no order has positive quantity
left (`reductions_made` false), or — the safety valve — right after the pass
that brings `reduction_rounds` above 1000.  `fuel` is the number of passes
still allowed after the next one; the initial call passes 1000, so at most
1001 passes run, exactly as `if reduction_rounds > 1000: break`.
Returns the reduced orders and the number of passes executed. -/
def reductionGo (budget : ℚ) (fuel : ℕ) (rs : List BuyRec) :
    List BuyRec × ℕ :=
  if totalCost rs ≤ budget then (rs, 0)
  else if anyPositive rs = false then (rs, 0)
  else
    match fuel with
    | 0 => (reduceStep rs, 1)
    | Nat.succ f =>
        let p := reductionGo budget f (reduceStep rs)
        (p.1, p.2 + 1)

/-- Result of `_apply_share_reduction_logic`, keeping the fields the claims
talk about: the surviving orders, whether the reduction branch ran
(`share_reduction_applied`), `original_total_cost`, `final_total_cost`,
`total_savings` and `reduction_rounds`. -/
structure FitResult where
  recs : List BuyRec
  reduced : Bool
  original_total_cost : ℚ
  final_total_cost : ℚ
  total_savings : ℚ
  reduction_rounds : ℕ
  deriving DecidableEq, Repr

/-- `AIStockPredictorService._apply_share_reduction_logic` with
`CASH_BUFFER = 500`.  Empty batches and batches already within
`available_cash - 500` are returned unchanged; otherwise the reduction loop
runs, orders whose quantity fell to 0 are dropped, and the aggregate
figures are reported (`final_total_cost` is summed before the drop, which
only removes zero-cost entries among nonnegative quantities). -/
def apply_share_reduction_logic (recs : List BuyRec) (available_cash : ℚ) :
    FitResult :=
  let max_investment := available_cash - 500
  let total_original_cost := totalCost recs
  if recs = [] then
    { recs := recs, reduced := false,
      original_total_cost := total_original_cost,
      final_total_cost := total_original_cost,
      total_savings := 0, reduction_rounds := 0 }
  else if total_original_cost ≤ max_investment then
    { recs := recs, reduced := false,
      original_total_cost := total_original_cost,
      final_total_cost := total_original_cost,
      total_savings := 0, reduction_rounds := 0 }
  else
    let p := reductionGo max_investment 1000 recs
    { recs := p.1.filter (fun r => 0 < r.quantity),
      reduced := true,
      original_total_cost := total_original_cost,
      final_total_cost := totalCost p.1,
      total_savings := total_original_cost - totalCost p.1,
      reduction_rounds := p.2 }

/-!
## Quote resolver — `MultiAPIStockService.get_stock_quote`

`get_stock_quote` copies the registered adapter list, shuffles it with
`random.shuffle`, then walks the shuffled list: the first adapter returning
a truthy result is stamped with its name (`result['api_source']`) and
returned; an adapter raising or returning `None` is skipped; when the walk
exhausts the list the function returns `None`.  The shuffle is embedded as
nondeterminism: the function below takes the *post-shuffle* order as its
argument, and any permutation of the registered list is a reachable order.
Only the current price of a quote matters to the claims, so an adapter is
its name plus the outcome of invoking it.
-/

/-- One quote-source adapter: its registered name and the outcome of one
invocation (`some price` on success; `none` for a raised exception or a
`None` return — `get_stock_quote` treats both as failure). -/
structure Adapter where
  name : String
  result : Option ℚ
  deriving DecidableEq, Repr

/-- The fallback walk of `get_stock_quote` over the (already shuffled)
adapter list.  Returns the resolved `(price, api_source)` — or `none` when
every adapter failed — together with the names of the adapters actually
invoked, in invocation order. -/
def get_stock_quote : List Adapter → Option (ℚ × String) × List String
  | [] => (none, [])
  | a :: rest =>
      match a.result with
      | some price => (some (price, a.name), [a.name])
      | none =>
          let p := get_stock_quote rest
          (p.1, a.name :: p.2)

/-!
## Quote cache — `MultiAPIStockService.get_cached_quote`

`data/cached_quotes.csv` is read into a dict keyed by ticker; embedded here
as a lookup function.  Timestamps are rationals (seconds); `datetime.now()`
is the explicit `now` parameter and the TTL comparison
`datetime.now() - cached_time < timedelta(hours=1)` becomes
`now - e.timestamp < 3600`.  The inner `self.get_stock_quote(symbol)` call
is passed in as its outcome `resolver : Option (ℚ × String)`.
-/

/-- One row of `cached_quotes.csv`: ticker, price, fetch time, source. -/
structure CacheEntry where
  ticker : String
  current_price : ℚ
  timestamp : ℚ
  api_source : String
  deriving DecidableEq, Repr

/-- What `get_cached_quote` hands back: either the cached dict
(`current_price`, `timestamp`, `api_source`) or the freshly resolved quote. -/
inductive QuoteResult where
  | cachedHit (current_price : ℚ) (timestamp : ℚ) (api_source : String)
  | fresh (current_price : ℚ) (api_source : String)
  deriving DecidableEq, Repr

/-- `MultiAPIStockService.get_cached_quote`.  Returns the result (`none`
models returning Python `None`), the cache contents after the call, and
whether the resolver (`get_stock_quote`) was invoked. -/
def get_cached_quote (cache : String → Option CacheEntry) (now : ℚ)
    (resolver : Option (ℚ × String)) (symbol : String)
    (force_refresh : Bool) :
    Option QuoteResult × (String → Option CacheEntry) × Bool :=
  match if force_refresh then none else cache symbol with
  | some e =>
      if now - e.timestamp < 3600 then
        (some (QuoteResult.cachedHit e.current_price e.timestamp e.api_source),
          cache, false)
      else
        match resolver with
        | some (price, src) =>
            (some (QuoteResult.fresh price src),
              fun t => if t = symbol then
                  some { ticker := symbol, current_price := price,
                         timestamp := now, api_source := src }
                else cache t,
              true)
        | none => (none, cache, true)
  | none =>
      match resolver with
      | some (price, src) =>
          (some (QuoteResult.fresh price src),
            fun t => if t = symbol then
                some { ticker := symbol, current_price := price,
                       timestamp := now, api_source := src }
              else cache t,
            true)
      | none => (none, cache, true)

/-!
## Stop-loss evaluator — `TradingScheduler.check_stop_losses`

The scheduler reads the transaction log and the holdings snapshot once,
builds `stop_loss_map` (last transaction with a nonempty `stop_price` wins
per ticker), then walks the holdings: a holding without a stop price or
without an obtainable quote is skipped; otherwise, when the current price is
at or below the stop, the ledger sell runs at the *stop* price for
`int(holding.quantity)` shares.  Python `int()` truncates toward zero,
which is `Int.floor` on the nonnegative quantities holdings carry.
The market quotes are the explicit `quotes` parameter.
-/

/-- `stop_loss_map` built by `check_stop_losses`: scan the transaction log
in order and keep, per ticker, the stop price of the last row whose
`stop_price` column is nonempty (only buy rows ever have one). -/
def stop_loss_map (txns : List Txn) (ticker : String) : Option ℚ :=
  txns.foldl
    (fun acc tx =>
      match tx with
      | Txn.buy t _ _ _ _ (some sp) => if t = ticker then some sp else acc
      | _ => acc)
    none

/-- One executed stop-loss sell, as collected in `stop_loss_triggered`:
the ticker and the gain/loss the ledger reported. -/
structure StopEvent where
  ticker : String
  gain_loss : ℚ
  deriving DecidableEq, Repr

/-- `TradingScheduler.check_stop_losses`: fold over the holdings snapshot,
threading the ledger state and collecting the successful sells.  A failed
ledger sell is caught (the except branch) and leaves the state as the
ledger returned it. -/
def check_stop_losses (quotes : String → Option ℚ) (s : LedgerState) :
    LedgerState × List StopEvent :=
  s.holdings.foldl
    (fun acc h =>
      match stop_loss_map s.transactions h.ticker with
      | none => acc
      | some stop_price =>
          match quotes h.ticker with
          | none => acc
          | some current_price =>
              if current_price ≤ stop_price then
                let r := sell_stock h.ticker ((⌊h.quantity⌋ : ℤ) : ℚ)
                  stop_price "Stop Loss Triggered" acc.1
                match r.1 with
                | Except.ok gl =>
                    (r.2, acc.2 ++ [{ ticker := h.ticker, gain_loss := gl }])
                | Except.error _ => (r.2, acc.2)
              else acc)
    (s, [])

/-!
## Derived definitions used by the verification
-/

/-- The invariant of the amended C1 claim: nonnegative observable cash and
strictly positive quantity for every holding present. -/
def LedgerInv (s : LedgerState) : Prop :=
  0 ≤ cashValue s ∧ ∀ h ∈ s.holdings, 0 < h.quantity

/-- All orders after `n` uniform reduction passes in which each of them was
decremented every pass. -/
def decAll (n : ℕ) (rs : List BuyRec) : List BuyRec :=
  rs.map (fun r => { r with quantity := r.quantity - (n : ℤ) })

/-- Sum of the per-order prices: the amount one uniform pass removes from
the batch total while every order is still positive. -/
def priceSum (rs : List BuyRec) : ℚ :=
  (rs.map BuyRec.price).sum

/-!
## Helper lemmas about the ledger
-/

theorem get_cash_balance_snd_holdings (s : LedgerState) :
    (get_cash_balance s).2.holdings = s.holdings := by
  cases hc : s.cash <;> simp [get_cash_balance, hc]

theorem get_cash_balance_snd_transactions (s : LedgerState) :
    (get_cash_balance s).2.transactions = s.transactions := by
  cases hc : s.cash <;> simp [get_cash_balance, hc]

theorem cashValue_get_cash_balance_snd (s : LedgerState) :
    cashValue (get_cash_balance s).2 = cashValue s := by
  cases hc : s.cash <;> simp [cashValue, get_cash_balance, hc]

theorem cashValue_some (c : ℚ) (hs : List Holding) (ts : List Txn) :
    cashValue { cash := some c, holdings := hs, transactions := ts } = c :=
  rfl

theorem findHolding_cons_self (h : Holding) (rest : List Holding)
    (hht : h.ticker = t) : findHolding (h :: rest) t = some h := by
  simp [findHolding, List.find?, hht]

theorem findHolding_cons_ne (h : Holding) (rest : List Holding)
    (hht : h.ticker ≠ t) : findHolding (h :: rest) t = findHolding rest t := by
  simp [findHolding, List.find?, hht]

theorem findHolding_eq_none (hs : List Holding) (t : String) :
    findHolding hs t = none ↔ ∀ h ∈ hs, h.ticker ≠ t := by
  induction hs with
  | nil => simp [findHolding]
  | cons h rest ih =>
      by_cases hht : h.ticker = t
      · simp [findHolding_cons_self h rest hht, hht]
      · rw [findHolding_cons_ne h rest hht]
        simp [ih, hht]

theorem findHolding_append_right (hs : List Holding) (x : Holding)
    (hnone : ∀ h ∈ hs, h.ticker ≠ t) (hx : x.ticker = t) :
    findHolding (hs ++ [x]) t = some x := by
  induction hs with
  | nil => simp [findHolding, List.find?, hx]
  | cons h rest ih =>
      have h1 : h.ticker ≠ t := hnone h (List.mem_cons_self h rest)
      rw [List.cons_append, findHolding_cons_ne h _ h1]
      exact ih fun h' hm => hnone h' (List.mem_cons_of_mem _ hm)

/-- A buy of a ticker not yet held appends a fresh holding with
`average_cost = price` at the end of the holdings list. -/
theorem update_buy_of_not_found (hs : List Holding) (t : String) (q p : ℚ)
    (hnone : ∀ h ∈ hs, h.ticker ≠ t) :
    update_holdings_after_buy hs t q p =
      hs ++ [{ ticker := t, quantity := q, average_cost := p,
               total_market_value := q * p }] := by
  induction hs with
  | nil => simp [update_holdings_after_buy]
  | cons h rest ih =>
      have h1 : h.ticker ≠ t := hnone h (List.mem_cons_self h rest)
      simp only [update_holdings_after_buy, if_neg h1, List.cons_append,
        List.cons.injEq, true_and]
      exact ih fun h' hm => hnone h' (List.mem_cons_of_mem _ hm)

/-- A buy of a ticker already held replaces its first occurrence in place
with the weighted-average-cost merge. -/
theorem findHolding_update_buy_of_found (hs : List Holding) (t : String)
    (q p : ℚ) (h0 : Holding) (hfind : findHolding hs t = some h0) :
    findHolding (update_holdings_after_buy hs t q p) t =
      some { ticker := t, quantity := h0.quantity + q,
             average_cost :=
               (h0.quantity * h0.average_cost + q * p) / (h0.quantity + q),
             total_market_value := (h0.quantity + q) * p } := by
  induction hs with
  | nil => simp [findHolding] at hfind
  | cons h rest ih =>
      by_cases hht : h.ticker = t
      · rw [findHolding_cons_self h rest hht] at hfind
        cases hfind
        simp [update_holdings_after_buy, if_pos hht, findHolding, List.find?]
      · rw [findHolding_cons_ne h rest hht] at hfind
        simp only [update_holdings_after_buy, if_neg hht]
        rw [findHolding_cons_ne _ _ hht]
        exact ih hfind

theorem findHolding_update_buy_of_not_found (hs : List Holding) (t : String)
    (q p : ℚ) (hfind : findHolding hs t = none) :
    findHolding (update_holdings_after_buy hs t q p) t =
      some { ticker := t, quantity := q, average_cost := p,
             total_market_value := q * p } := by
  have hnone := (findHolding_eq_none hs t).1 hfind
  rw [update_buy_of_not_found hs t q p hnone]
  exact findHolding_append_right hs _ hnone rfl

/-!
## C10 — default cash balance
-/

/-- C10: on a ledger with no cash record, `get_cash_balance` returns exactly
10000.00 and persists it as the balance, and a first buy's funds check is
made against this default: it fails exactly when `quantity*price > 10000`. -/
theorem C10_default_cash (hs : List Holding) (ts : List Txn) :
    get_cash_balance { cash := none, holdings := hs, transactions := ts } =
      (10000, { cash := some 10000, holdings := hs, transactions := ts }) ∧
    ∀ (t : String) (q p : ℚ) (r : String) (sp : Option ℚ),
      ((buy_stock t q p r sp
          { cash := none, holdings := hs, transactions := ts }).1.isOk = true
        ↔ q * p ≤ 10000) := by
  refine ⟨rfl, fun t q p r sp => ?_⟩
  by_cases hb : q * p > 10000
  · simp [buy_stock, get_cash_balance, if_pos hb, Except.isOk, Except.toBool]
    linarith
  · simp [buy_stock, get_cash_balance, if_neg hb, Except.isOk, Except.toBool]
    linarith

/-- C10 witness: evaluating the theorem on the fresh ledger. -/
theorem C10_default_cash_witness :
    get_cash_balance LedgerState.fresh =
      (10000, { cash := some 10000, holdings := [], transactions := [] }) :=
  (C10_default_cash [] []).1

/-- Evaluation of a funded buy: the success branch of `buy_stock` spelled
out over the caller's state. -/
theorem buy_stock_of_le (s : LedgerState) (t : String) (q p : ℚ) (r : String)
    (sp : Option ℚ) (hle : q * p ≤ cashValue s) :
    buy_stock t q p r sp s =
      (Except.ok (cashValue s - q * p),
        { cash := some (cashValue s - q * p),
          holdings := update_holdings_after_buy s.holdings (pyUpper t) q p,
          transactions := s.transactions ++
            [Txn.buy (pyUpper t) q p (q * p) r (normStop sp)] }) := by
  have hb' : ¬ (get_cash_balance s).1 < q * p := not_lt.mpr hle
  simp only [buy_stock]
  rw [if_neg hb', get_cash_balance_snd_holdings, get_cash_balance_snd_transactions]
  rfl

/-- Evaluation of a covered sell: the success branch of `sell_stock`
spelled out over the caller's state. -/
theorem sell_stock_of_found (s : LedgerState) (t : String) (q p : ℚ)
    (r : String) (h0 : Holding)
    (hfind : findHolding s.holdings (pyUpper t) = some h0)
    (hle : q ≤ h0.quantity) :
    sell_stock t q p r s =
      (Except.ok (q * p - q * h0.average_cost),
        { cash := some (cashValue s + q * p),
          holdings := update_holdings_after_sell s.holdings (pyUpper t) q,
          transactions := s.transactions ++
            [Txn.sell (pyUpper t) q p (q * p - q * h0.average_cost) r] }) := by
  have hb' : ¬ h0.quantity < q := not_lt.mpr hle
  simp only [sell_stock, hfind]
  rw [if_neg hb', get_cash_balance_snd_holdings, get_cash_balance_snd_transactions]
  rfl

/-!
## C2 — buy: failure condition, atomicity, exact debit
-/

/-- C2: `buy_stock` fails with the insufficient-funds error exactly when
`quantity*price` exceeds the cash balance; on failure the observable ledger
state (cash balance, holdings, transaction log) is unchanged; on success
cash is debited by exactly `quantity*price`, one Buy transaction is
appended, and the holding for the uppercased ticker is upserted (created
with `average_cost = price`, or merged by weighted average). -/
theorem C2_buy_contract (s : LedgerState) (t : String) (q p : ℚ)
    (r : String) (sp : Option ℚ) :
    ((buy_stock t q p r sp s).1 = Except.error "Insufficient funds"
      ↔ q * p > cashValue s) ∧
    (q * p > cashValue s →
      cashValue (buy_stock t q p r sp s).2 = cashValue s ∧
      (buy_stock t q p r sp s).2.holdings = s.holdings ∧
      (buy_stock t q p r sp s).2.transactions = s.transactions) ∧
    (q * p ≤ cashValue s →
      cashValue (buy_stock t q p r sp s).2 = cashValue s - q * p ∧
      (buy_stock t q p r sp s).2.transactions =
        s.transactions ++ [Txn.buy (pyUpper t) q p (q * p) r (normStop sp)] ∧
      (findHolding s.holdings (pyUpper t) = none →
        findHolding (buy_stock t q p r sp s).2.holdings (pyUpper t) =
          some { ticker := (pyUpper t), quantity := q, average_cost := p,
                 total_market_value := q * p }) ∧
      (∀ h0, findHolding s.holdings (pyUpper t) = some h0 →
        findHolding (buy_stock t q p r sp s).2.holdings (pyUpper t) =
          some { ticker := (pyUpper t), quantity := h0.quantity + q,
                 average_cost := (h0.quantity * h0.average_cost + q * p) /
                   (h0.quantity + q),
                 total_market_value := (h0.quantity + q) * p })) := by
  by_cases hb : q * p > cashValue s
  · have hb' : (get_cash_balance s).1 < q * p := hb
    have h1 : buy_stock t q p r sp s =
        (Except.error "Insufficient funds", (get_cash_balance s).2) := by
      simp only [buy_stock]
      rw [if_pos hb']
    refine ⟨?_, fun _ => ?_, fun hle => absurd hb (not_lt.mpr hle)⟩
    · rw [h1]; exact iff_of_true rfl hb
    · rw [h1]
      exact ⟨cashValue_get_cash_balance_snd s, get_cash_balance_snd_holdings s,
        get_cash_balance_snd_transactions s⟩
  · have hb' : ¬ (get_cash_balance s).1 < q * p := hb
    have h1 : buy_stock t q p r sp s =
        (Except.ok ((get_cash_balance s).1 - q * p),
          { cash := some ((get_cash_balance s).1 - q * p),
            holdings :=
              update_holdings_after_buy (get_cash_balance s).2.holdings
                (pyUpper t) q p,
            transactions := (get_cash_balance s).2.transactions ++
              [Txn.buy (pyUpper t) q p (q * p) r (normStop sp)] }) := by
      simp only [buy_stock]
      rw [if_neg hb']
    refine ⟨⟨fun he => ?_, fun hgt => absurd hgt hb⟩, fun hgt => absurd hgt hb,
      fun _ => ?_⟩
    · rw [h1] at he; exact absurd he (by simp)
    · rw [h1]
      refine ⟨rfl, ?_, fun hnone => ?_, fun h0 hsome => ?_⟩
      · simp [get_cash_balance_snd_transactions]
      · rw [get_cash_balance_snd_holdings]
        exact findHolding_update_buy_of_not_found s.holdings (pyUpper t) q p hnone
      · rw [get_cash_balance_snd_holdings]
        exact findHolding_update_buy_of_found s.holdings (pyUpper t) q p h0 hsome

/-- C2 witness: on the fresh ledger a 2-share buy at $3 debits cash to
$9994, and a buy costing $20000 is rejected as insufficient funds. -/
theorem C2_buy_contract_witness :
    cashValue (buy_stock "ab" 2 3 "r" none LedgerState.fresh).2 = 9994 ∧
    (buy_stock "ab" 20000 1 "x" none LedgerState.fresh).1 =
      Except.error "Insufficient funds" := by
  have hcv : cashValue LedgerState.fresh = 10000 := rfl
  constructor
  · have h := ((C2_buy_contract LedgerState.fresh "ab" 2 3 "r" none).2.2
      (by rw [hcv]; norm_num)).1
    rw [h, hcv]; norm_num
  · exact (C2_buy_contract LedgerState.fresh "ab" 20000 1 "x" none).1.mpr
      (by rw [hcv]; norm_num)

/-!
## C8 — no quantity validation in the ledger
-/

/-- C8 counterexample: `PortfolioService.buy_stock` contains no
quantity-positivity check.  A buy of 0 shares on the fresh ledger is *not*
rejected: it succeeds and appends a Buy transaction, contradicting the
claim that the ledger rejects `quantity ≤ 0` with `InvalidQuantity` leaving
state unchanged. -/
theorem C8_counterexample :
    (buy_stock "A" 0 5 "r" none LedgerState.fresh).1 = Except.ok 10000 ∧
    (buy_stock "A" 0 5 "r" none LedgerState.fresh).2.transactions =
      [Txn.buy "A" 0 5 0 "r" none] := by
  have h1 := buy_stock_of_le LedgerState.fresh "A" 0 5 "r" none
    (by show (0 : ℚ) * 5 ≤ 10000; norm_num)
  rw [h1]
  constructor
  · show Except.ok (cashValue LedgerState.fresh - 0 * 5) = Except.ok 10000
    norm_num
    rfl
  · show LedgerState.fresh.transactions ++
      [Txn.buy (pyUpper "A") 0 5 (0 * 5) "r" (normStop none)] =
      [Txn.buy "A" 0 5 0 "r" none]
    norm_num
    rfl

/-- C8 (amended): the ledger's `buy_stock` and `sell_stock` perform no
quantity validation at all.  A buy with `quantity ≤ 0` succeeds whenever
`quantity*price` does not exceed the cash balance, and a sell with
`quantity ≤ 0` succeeds whenever a holding for the uppercased ticker exists
(its quantity check `quantity > holding.quantity` cannot fire); the
`quantity ≤ 0` rejection the spec describes exists only in the HTTP route
layer (`app.py`), outside the ledger. -/
theorem C8_no_quantity_validation (s : LedgerState) (t : String) (q p : ℚ)
    (r : String) (sp : Option ℚ) (_hq : q ≤ 0) :
    (q * p ≤ cashValue s → (buy_stock t q p r sp s).1.isOk = true) ∧
    (∀ h0, findHolding s.holdings (pyUpper t) = some h0 → q ≤ h0.quantity →
      (sell_stock t q p r s).1.isOk = true) := by
  constructor
  · intro hle
    rw [buy_stock_of_le s t q p r sp hle]
    rfl
  · intro h0 hfind hle
    rw [sell_stock_of_found s t q p r h0 hfind hle]
    rfl

/-- C8 witness: a 0-share buy on the fresh ledger and a (-1)-share sell
against an existing holding both go through. -/
theorem C8_no_quantity_validation_witness :
    (buy_stock "A" 0 5 "r" none LedgerState.fresh).1.isOk = true ∧
    (sell_stock "B" (-1) 5 "r"
      { cash := some 100,
        holdings := [{ ticker := "B", quantity := 1, average_cost := 2,
                       total_market_value := 2 }],
        transactions := [] }).1.isOk = true := by
  refine ⟨(C8_no_quantity_validation LedgerState.fresh "A" 0 5 "r" none
    (by norm_num)).1 (by show (0 : ℚ) * 5 ≤ 10000; norm_num), ?_⟩
  exact (C8_no_quantity_validation _ "B" (-1) 5 "r" none (by norm_num)).2
    { ticker := "B", quantity := 1, average_cost := 2, total_market_value := 2 }
    (by decide) (by norm_num)

/-!
## C1 — ledger invariants over call sequences
-/

theorem update_buy_pos (hs : List Holding) (t : String) (q p : ℚ)
    (hq : 0 < q) :
    (∀ h ∈ hs, 0 < h.quantity) →
    ∀ h' ∈ update_holdings_after_buy hs t q p, 0 < h'.quantity := by
  induction hs with
  | nil =>
      intro _ h' hm
      simp only [update_holdings_after_buy, List.mem_singleton] at hm
      rw [hm]
      exact hq
  | cons h rest ih =>
      intro hpos h' hm
      simp only [update_holdings_after_buy] at hm
      by_cases hht : h.ticker = t
      · rw [if_pos hht] at hm
        rcases List.mem_cons.mp hm with heq | hm'
        · rw [heq]
          exact add_pos (hpos h (List.mem_cons_self h rest)) hq
        · exact hpos h' (List.mem_cons_of_mem h hm')
      · rw [if_neg hht] at hm
        rcases List.mem_cons.mp hm with heq | hm'
        · rw [heq]; exact hpos h (List.mem_cons_self h rest)
        · exact ih (fun a ha => hpos a (List.mem_cons_of_mem h ha)) h' hm'

theorem update_sell_pos (hs : List Holding) (t : String) (q : ℚ) :
    (∀ h ∈ hs, 0 < h.quantity) →
    ∀ h' ∈ update_holdings_after_sell hs t q, 0 < h'.quantity := by
  induction hs with
  | nil => intro _ h' hm; simp [update_holdings_after_sell] at hm
  | cons h rest ih =>
      intro hpos h' hm
      simp only [update_holdings_after_sell] at hm
      by_cases hht : h.ticker = t
      · rw [if_pos hht] at hm
        by_cases hz : h.quantity - q ≤ 0
        · rw [if_pos hz] at hm
          exact hpos h' (List.mem_cons_of_mem h hm)
        · rw [if_neg hz] at hm
          rcases List.mem_cons.mp hm with heq | hm'
          · rw [heq]; exact lt_of_not_le hz
          · exact hpos h' (List.mem_cons_of_mem h hm')
      · rw [if_neg hht] at hm
        rcases List.mem_cons.mp hm with heq | hm'
        · rw [heq]; exact hpos h (List.mem_cons_self h rest)
        · exact ih (fun a ha => hpos a (List.mem_cons_of_mem h ha)) h' hm'

theorem buy_preserves_inv (s : LedgerState) (t : String) (q p : ℚ)
    (r : String) (sp : Option ℚ) (hq : 0 < q) (hinv : LedgerInv s) :
    LedgerInv (buy_stock t q p r sp s).2 := by
  by_cases hb : q * p > cashValue s
  · have hb' : (get_cash_balance s).1 < q * p := hb
    have h1 : (buy_stock t q p r sp s).2 = (get_cash_balance s).2 := by
      simp only [buy_stock]
      rw [if_pos hb']
    rw [h1]
    refine ⟨?_, ?_⟩
    · rw [cashValue_get_cash_balance_snd]; exact hinv.1
    · rw [get_cash_balance_snd_holdings]; exact hinv.2
  · push_neg at hb
    rw [buy_stock_of_le s t q p r sp hb]
    refine ⟨sub_nonneg.mpr hb, ?_⟩
    exact update_buy_pos s.holdings (pyUpper t) q p hq hinv.2

theorem sell_preserves_inv (s : LedgerState) (t : String) (q p : ℚ)
    (r : String) (hq : 0 < q) (hp : 0 ≤ p) (hinv : LedgerInv s) :
    LedgerInv (sell_stock t q p r s).2 := by
  cases hfind : findHolding s.holdings (pyUpper t) with
  | none =>
      have h1 : (sell_stock t q p r s).2 = s := by
        simp only [sell_stock, hfind]
      rw [h1]; exact hinv
  | some h0 =>
      by_cases hgt : h0.quantity < q
      · have h1 : (sell_stock t q p r s).2 = s := by
          simp only [sell_stock, hfind]
          rw [if_pos hgt]
        rw [h1]; exact hinv
      · push_neg at hgt
        rw [sell_stock_of_found s t q p r h0 hfind hgt]
        refine ⟨add_nonneg hinv.1 (mul_nonneg hq.le hp), ?_⟩
        exact update_sell_pos s.holdings (pyUpper t) q hinv.2

theorem runCalls_preserves_inv (cs : List Call) :
    ∀ s : LedgerState, (∀ c ∈ cs, validCall c) → LedgerInv s →
      LedgerInv (runCalls cs s) := by
  induction cs with
  | nil => intro s _ hinv; exact hinv
  | cons c cs ih =>
      intro s hval hinv
      have h1 : runCalls (c :: cs) s = runCalls cs (applyCall c s) := rfl
      rw [h1]
      refine ih (applyCall c s)
        (fun c' hc' => hval c' (List.mem_cons_of_mem c hc')) ?_
      have hc := hval c (List.mem_cons_self c cs)
      cases c with
      | buy t q p r sp => exact buy_preserves_inv s t q p r sp hc.1 hinv
      | sell t q p r => exact sell_preserves_inv s t q p r hc.1 hc.2 hinv

theorem update_sell_removes (hs : List Holding) (t : String) (q : ℚ) :
    (hs.map Holding.ticker).Nodup →
    ∀ h0, findHolding hs t = some h0 → h0.quantity - q ≤ 0 →
    findHolding (update_holdings_after_sell hs t q) t = none := by
  induction hs with
  | nil => intro _ h0 hfind; simp [findHolding] at hfind
  | cons h rest ih =>
      intro hnodup h0 hfind hle
      rw [List.map_cons, List.nodup_cons] at hnodup
      by_cases hht : h.ticker = t
      · rw [findHolding_cons_self h rest hht] at hfind
        cases hfind
        simp only [update_holdings_after_sell]
        rw [if_pos hht, if_pos hle]
        refine (findHolding_eq_none rest t).mpr ?_
        intro h' hm' hEq
        exact hnodup.1 (hht ▸ hEq ▸ List.mem_map_of_mem Holding.ticker hm')
      · rw [findHolding_cons_ne h rest hht] at hfind
        simp only [update_holdings_after_sell]
        rw [if_neg hht, findHolding_cons_ne _ _ hht]
        exact ih hnodup.2 h0 hfind hle

/-- C1 counterexample: the ledger performs no input validation, so the
claim's unrestricted quantification over buy/sell calls fails.  A single
buy of quantity −1 (cost −5 ≤ cash, so the funds check passes) creates a
holding with negative quantity. -/
theorem C1_counterexample :
    (runCalls [Call.buy "A" (-1) 5 "r" none] LedgerState.fresh).holdings.map
      Holding.quantity = [(-1 : ℚ)] ∧ ¬ (0 ≤ (-1 : ℚ)) := by
  have h1 : runCalls [Call.buy "A" (-1) 5 "r" none] LedgerState.fresh =
      (buy_stock "A" (-1) 5 "r" none LedgerState.fresh).2 := rfl
  have h2 := buy_stock_of_le LedgerState.fresh "A" (-1) 5 "r" none
    (by show (-1 : ℚ) * 5 ≤ 10000; norm_num)
  rw [h1, h2]
  exact ⟨rfl, by norm_num⟩

/-- C1 (amended): for all sequences of buy/sell calls whose quantities are
positive and whose prices are nonnegative — the inputs the HTTP layer
admits — the cash balance stays ≥ 0 and every holding present has strictly
positive quantity; and on a ledger with pairwise-distinct holding tickers,
a successful sell that would take a holding's quantity to ≤ 0 removes the
holding from the holdings set.  (The unrestricted original claim is false:
see the counterexample.) -/
theorem C1_invariants :
    (∀ cs : List Call, (∀ c ∈ cs, validCall c) →
      0 ≤ cashValue (runCalls cs LedgerState.fresh) ∧
      ∀ h ∈ (runCalls cs LedgerState.fresh).holdings, 0 < h.quantity) ∧
    (∀ (s : LedgerState) (t : String) (q p : ℚ) (r : String) (h0 : Holding),
      (s.holdings.map Holding.ticker).Nodup →
      findHolding s.holdings (pyUpper t) = some h0 →
      q ≤ h0.quantity → h0.quantity - q ≤ 0 →
      findHolding ((sell_stock t q p r s).2).holdings (pyUpper t) = none) := by
  constructor
  · intro cs hval
    refine runCalls_preserves_inv cs LedgerState.fresh hval ⟨?_, ?_⟩
    · show (0 : ℚ) ≤ 10000
      norm_num
    · intro h hm
      exact absurd hm (List.not_mem_nil h)
  · intro s t q p r h0 hnodup hfind hleq hfall
    rw [sell_stock_of_found s t q p r h0 hfind hleq]
    exact update_sell_removes s.holdings (pyUpper t) q hnodup h0 hfind hfall

/-- C1 witness: the invariant evaluated after one valid buy, and the
removal of a fully sold holding. -/
theorem C1_invariants_witness :
    0 ≤ cashValue (runCalls [Call.buy "B" 1 2 "r" none] LedgerState.fresh) ∧
    findHolding ((sell_stock "B" 1 3 "x"
      { cash := some 100,
        holdings := [{ ticker := "B", quantity := 1, average_cost := 2,
                       total_market_value := 2 }],
        transactions := [] }).2).holdings (pyUpper "B") = none := by
  constructor
  · exact (C1_invariants.1 [Call.buy "B" 1 2 "r" none]
      (by intro c hc; rw [List.mem_singleton] at hc; rw [hc]
          exact ⟨by norm_num, by norm_num⟩)).1
  · exact C1_invariants.2 _ "B" 1 3 "x"
      { ticker := "B", quantity := 1, average_cost := 2,
        total_market_value := 2 }
      (by decide) (by decide) (by norm_num) (by norm_num)

/-!
## C3 / C9 — weighted-average cost and ticker normalization
-/

theorem update_buy_append_merge (hs : List Holding) (x : Holding) (t : String)
    (q p : ℚ) (hnone : ∀ h ∈ hs, h.ticker ≠ t) (hx : x.ticker = t) :
    update_holdings_after_buy (hs ++ [x]) t q p =
      hs ++ [{ ticker := t, quantity := x.quantity + q,
               average_cost := (x.quantity * x.average_cost + q * p) /
                 (x.quantity + q),
               total_market_value := (x.quantity + q) * p }] := by
  induction hs with
  | nil =>
      simp only [List.nil_append, update_holdings_after_buy]
      rw [if_pos hx]
  | cons h rest ih =>
      have h1 : h.ticker ≠ t := hnone h (List.mem_cons_self h rest)
      simp only [List.cons_append, update_holdings_after_buy]
      rw [if_neg h1]
      exact congrArg (List.cons h) (ih fun h' hm => hnone h' (List.mem_cons_of_mem h hm))

theorem filter_ticker_append (hs : List Holding) (x : Holding) (t : String)
    (hnone : ∀ h ∈ hs, h.ticker ≠ t) (hx : x.ticker = t) :
    (hs ++ [x]).filter (fun h => h.ticker = t) = [x] := by
  induction hs with
  | nil => simp [hx]
  | cons h rest ih =>
      have h1 : h.ticker ≠ t := hnone h (List.mem_cons_self h rest)
      rw [List.cons_append, List.filter_cons_of_neg]
      · exact ih fun h' hm => hnone h' (List.mem_cons_of_mem h hm)
      · simpa using h1

theorem update_sell_keeps (hs : List Holding) (t : String) (q : ℚ) :
    ∀ h' ∈ update_holdings_after_sell hs t q,
      ∃ h ∈ hs, h'.ticker = h.ticker ∧ h'.average_cost = h.average_cost := by
  induction hs with
  | nil => intro h' hm; simp [update_holdings_after_sell] at hm
  | cons h rest ih =>
      intro h' hm
      simp only [update_holdings_after_sell] at hm
      by_cases hht : h.ticker = t
      · rw [if_pos hht] at hm
        by_cases hz : h.quantity - q ≤ 0
        · rw [if_pos hz] at hm
          exact ⟨h', List.mem_cons_of_mem h hm, rfl, rfl⟩
        · rw [if_neg hz] at hm
          rcases List.mem_cons.mp hm with heq | hm'
          · exact ⟨h, List.mem_cons_self h rest, by rw [heq], by rw [heq]⟩
          · exact ⟨h', List.mem_cons_of_mem h hm', rfl, rfl⟩
      · rw [if_neg hht] at hm
        rcases List.mem_cons.mp hm with heq | hm'
        · exact ⟨h, List.mem_cons_self h rest, by rw [heq], by rw [heq]⟩
        · obtain ⟨a, ha, e1, e2⟩ := ih h' hm'
          exact ⟨a, List.mem_cons_of_mem h ha, e1, e2⟩

/-- A sell never changes the ticker or `average_cost` of any holding that
survives it: every holding after the call matches one before it. -/
theorem sell_keeps_average_cost :
    ∀ (s' : LedgerState) (t' : String) (q p : ℚ) (r' : String),
      ∀ h' ∈ ((sell_stock t' q p r' s').2).holdings,
        ∃ h ∈ s'.holdings, h'.ticker = h.ticker ∧
          h'.average_cost = h.average_cost := by
  intro s t q p r h' hm
  cases hfind : findHolding s.holdings (pyUpper t) with
  | none =>
      have h1 : (sell_stock t q p r s).2 = s := by
        simp only [sell_stock, hfind]
      rw [h1] at hm
      exact ⟨h', hm, rfl, rfl⟩
  | some h0 =>
      by_cases hgt : h0.quantity < q
      · have h1 : (sell_stock t q p r s).2 = s := by
          simp only [sell_stock, hfind]
          rw [if_pos hgt]
        rw [h1] at hm
        exact ⟨h', hm, rfl, rfl⟩
      · push_neg at hgt
        rw [sell_stock_of_found s t q p r h0 hfind hgt] at hm
        exact update_sell_keeps s.holdings (pyUpper t) q h' hm

/-- Two consecutive funded buys of tickers with the same uppercase form,
starting from a ledger that does not hold that ticker, leave the holdings
list extended by exactly one merged holding. -/
theorem two_buys_merge (s : LedgerState) (t1 t2 : String) (q1 p1 q2 p2 : ℚ)
    (r1 r2 : String) (sp1 sp2 : Option ℚ)
    (hEq : pyUpper t1 = pyUpper t2)
    (hnone : findHolding s.holdings (pyUpper t1) = none)
    (hc1 : q1 * p1 ≤ cashValue s)
    (hc2 : q2 * p2 ≤ cashValue s - q1 * p1) :
    ((buy_stock t2 q2 p2 r2 sp2 (buy_stock t1 q1 p1 r1 sp1 s).2).2).holdings =
      s.holdings ++
        [{ ticker := pyUpper t1, quantity := q1 + q2,
           average_cost := (q1 * p1 + q2 * p2) / (q1 + q2),
           total_market_value := (q1 + q2) * p2 }] := by
  have hup := (findHolding_eq_none _ _).mp hnone
  rw [buy_stock_of_le s t1 q1 p1 r1 sp1 hc1]
  have hcv : cashValue
      { cash := some (cashValue s - q1 * p1),
        holdings := update_holdings_after_buy s.holdings (pyUpper t1) q1 p1,
        transactions := s.transactions ++
          [Txn.buy (pyUpper t1) q1 p1 (q1 * p1) r1 (normStop sp1)] } =
      cashValue s - q1 * p1 := rfl
  rw [buy_stock_of_le _ t2 q2 p2 r2 sp2 (by rw [hcv]; exact hc2)]
  show update_holdings_after_buy
      (update_holdings_after_buy s.holdings (pyUpper t1) q1 p1)
      (pyUpper t2) q2 p2 = _
  rw [update_buy_of_not_found s.holdings (pyUpper t1) q1 p1 hup, ← hEq]
  rw [update_buy_append_merge s.holdings _ (pyUpper t1) q2 p2 hup rfl]

/-- C3: buying a ticker twice (quantities `q1@p1` then `q2@p2`) from a
state that does not hold it yields a single holding for it, with quantity
`q1+q2` and `average_cost = (q1*p1 + q2*p2)/(q1+q2)` exactly; the first
buy creates the holding with `average_cost` equal to the buy price; and a
sell never changes the `average_cost` of any surviving holding. -/
theorem C3_weighted_average (s : LedgerState) (t : String)
    (q1 p1 q2 p2 : ℚ) (r1 r2 : String) (sp1 sp2 : Option ℚ)
    (hnone : findHolding s.holdings (pyUpper t) = none)
    (_hq1 : 0 < q1) (_hq2 : 0 < q2)
    (hc1 : q1 * p1 ≤ cashValue s)
    (hc2 : q2 * p2 ≤ cashValue s - q1 * p1) :
    findHolding ((buy_stock t q1 p1 r1 sp1 s).2).holdings (pyUpper t) =
      some { ticker := pyUpper t, quantity := q1, average_cost := p1,
             total_market_value := q1 * p1 } ∧
    ((buy_stock t q2 p2 r2 sp2 (buy_stock t q1 p1 r1 sp1 s).2).2).holdings.filter
        (fun h => h.ticker = pyUpper t) =
      [{ ticker := pyUpper t, quantity := q1 + q2,
         average_cost := (q1 * p1 + q2 * p2) / (q1 + q2),
         total_market_value := (q1 + q2) * p2 }] ∧
    (∀ (s' : LedgerState) (t' : String) (q p : ℚ) (r' : String),
      ∀ h' ∈ ((sell_stock t' q p r' s').2).holdings,
        ∃ h ∈ s'.holdings, h'.ticker = h.ticker ∧
          h'.average_cost = h.average_cost) := by
  have hup := (findHolding_eq_none _ _).mp hnone
  refine ⟨?_, ?_, ?_⟩
  · rw [buy_stock_of_le s t q1 p1 r1 sp1 hc1]
    show findHolding
      (update_holdings_after_buy s.holdings (pyUpper t) q1 p1) (pyUpper t) = _
    rw [update_buy_of_not_found s.holdings (pyUpper t) q1 p1 hup]
    exact findHolding_append_right s.holdings _ hup rfl
  · rw [two_buys_merge s t t q1 p1 q2 p2 r1 r2 sp1 sp2 rfl hnone hc1 hc2]
    exact filter_ticker_append s.holdings _ (pyUpper t) hup rfl
  · exact sell_keeps_average_cost

/-- C3 witness: 4 shares at $6 then 2 shares at $3 merge into one holding
of 6 shares at weighted average cost (within the theorem's statement, the
unevaluated `(4*6 + 2*3)/(4+2)`, i.e. $5). -/
theorem C3_weighted_average_witness :
    ((buy_stock "ab" 2 3 "r2" none
        (buy_stock "ab" 4 6 "r1" none LedgerState.fresh).2).2).holdings.filter
        (fun h => h.ticker = pyUpper "ab") =
      [{ ticker := pyUpper "ab", quantity := 4 + 2,
         average_cost := (4 * 6 + 2 * 3) / (4 + 2),
         total_market_value := (4 + 2) * 3 }] :=
  (C3_weighted_average LedgerState.fresh "ab" 4 6 2 3 "r1" "r2" none none
    (by decide) (by norm_num) (by norm_num)
    (by show (4 : ℚ) * 6 ≤ 10000; norm_num)
    (by show (2 : ℚ) * 3 ≤ 10000 - 4 * 6; norm_num)).2.1

theorem update_buy_mem (hs : List Holding) (t : String) (q p : ℚ) :
    ∀ h' ∈ update_holdings_after_buy hs t q p, h' ∈ hs ∨ h'.ticker = t := by
  induction hs with
  | nil =>
      intro h' hm
      simp only [update_holdings_after_buy, List.mem_singleton] at hm
      exact Or.inr (by rw [hm])
  | cons h rest ih =>
      intro h' hm
      simp only [update_holdings_after_buy] at hm
      by_cases hht : h.ticker = t
      · rw [if_pos hht] at hm
        rcases List.mem_cons.mp hm with heq | hm'
        · exact Or.inr (by rw [heq])
        · exact Or.inl (List.mem_cons_of_mem h hm')
      · rw [if_neg hht] at hm
        rcases List.mem_cons.mp hm with heq | hm'
        · exact Or.inl (heq ▸ List.mem_cons_self h rest)
        · rcases ih h' hm' with hin | hticker
          · exact Or.inl (List.mem_cons_of_mem h hin)
          · exact Or.inr hticker

/-- C9: the ledger normalizes tickers with `upper()` before matching or
writing.  Every successful buy appends its Buy transaction under the
uppercased ticker and only touches holdings carrying that uppercased
ticker; a successful sell appends its Sell transaction under the
uppercased ticker with `gain_loss` computed from the matched holding's
average cost; two buys whose tickers differ only in case accumulate into
one holding; and a sell succeeds against a holding bought under any casing
of the same symbol. -/
theorem C9_ticker_normalization :
    (∀ (s : LedgerState) (t : String) (q p : ℚ) (r : String) (sp : Option ℚ),
      (buy_stock t q p r sp s).1.isOk = true →
      (buy_stock t q p r sp s).2.transactions =
        s.transactions ++ [Txn.buy (pyUpper t) q p (q * p) r (normStop sp)] ∧
      ∀ h ∈ (buy_stock t q p r sp s).2.holdings,
        h ∈ s.holdings ∨ h.ticker = pyUpper t) ∧
    (∀ (s : LedgerState) (t : String) (q p : ℚ) (r : String) (h0 : Holding),
      findHolding s.holdings (pyUpper t) = some h0 →
      (sell_stock t q p r s).1.isOk = true →
      (sell_stock t q p r s).2.transactions =
        s.transactions ++
          [Txn.sell (pyUpper t) q p (q * p - q * h0.average_cost) r]) ∧
    (∀ (s : LedgerState) (t1 t2 : String) (q1 p1 q2 p2 : ℚ) (r1 r2 : String)
        (sp1 sp2 : Option ℚ),
      pyUpper t1 = pyUpper t2 →
      findHolding s.holdings (pyUpper t1) = none →
      q1 * p1 ≤ cashValue s → q2 * p2 ≤ cashValue s - q1 * p1 →
      ((buy_stock t2 q2 p2 r2 sp2
          (buy_stock t1 q1 p1 r1 sp1 s).2).2).holdings.filter
          (fun h => h.ticker = pyUpper t1) =
        [{ ticker := pyUpper t1, quantity := q1 + q2,
           average_cost := (q1 * p1 + q2 * p2) / (q1 + q2),
           total_market_value := (q1 + q2) * p2 }] ∧
      (∀ (q p : ℚ) (r : String), q ≤ q1 →
        (sell_stock t2 q p r (buy_stock t1 q1 p1 r1 sp1 s).2).1.isOk = true)) := by
  refine ⟨?_, ?_, ?_⟩
  · intro s t q p r sp hOk
    by_cases hb : q * p ≤ cashValue s
    · rw [buy_stock_of_le s t q p r sp hb]
      exact ⟨rfl, update_buy_mem s.holdings (pyUpper t) q p⟩
    · push_neg at hb
      have hb' : (get_cash_balance s).1 < q * p := hb
      have h1 : buy_stock t q p r sp s =
          (Except.error "Insufficient funds", (get_cash_balance s).2) := by
        simp only [buy_stock]
        rw [if_pos hb']
      rw [h1] at hOk
      simp [Except.isOk, Except.toBool] at hOk
  · intro s t q p r h0 hfind hOk
    by_cases hgt : h0.quantity < q
    · have h1 : sell_stock t q p r s = (Except.error "Cannot sell", s) := by
        simp only [sell_stock, hfind]
        rw [if_pos hgt]
      rw [h1] at hOk
      simp [Except.isOk, Except.toBool] at hOk
    · push_neg at hgt
      rw [sell_stock_of_found s t q p r h0 hfind hgt]
  · intro s t1 t2 q1 p1 q2 p2 r1 r2 sp1 sp2 hEq hnone hc1 hc2
    have hup := (findHolding_eq_none _ _).mp hnone
    constructor
    · rw [two_buys_merge s t1 t2 q1 p1 q2 p2 r1 r2 sp1 sp2 hEq hnone hc1 hc2]
      exact filter_ticker_append s.holdings _ (pyUpper t1) hup rfl
    · intro q p r hq
      rw [buy_stock_of_le s t1 q1 p1 r1 sp1 hc1]
      have hfind1 : findHolding
          (update_holdings_after_buy s.holdings (pyUpper t1) q1 p1)
          (pyUpper t2) =
          some { ticker := pyUpper t1, quantity := q1, average_cost := p1,
                 total_market_value := q1 * p1 } := by
        rw [← hEq, update_buy_of_not_found s.holdings (pyUpper t1) q1 p1 hup]
        exact findHolding_append_right s.holdings _ hup rfl
      rw [sell_stock_of_found _ t2 q p r _ hfind1 hq]
      rfl

/-- C9 witness: buys of "ab" and "Ab" merge into one "AB" holding, and a
sell of "aB" liquidates shares bought as "ab". -/
theorem C9_ticker_normalization_witness :
    ((buy_stock "Ab" 2 3 "r2" none
        (buy_stock "ab" 4 6 "r1" none LedgerState.fresh).2).2).holdings.filter
        (fun h => h.ticker = pyUpper "ab") =
      [{ ticker := pyUpper "ab", quantity := 4 + 2,
         average_cost := (4 * 6 + 2 * 3) / (4 + 2),
         total_market_value := (4 + 2) * 3 }] ∧
    (sell_stock "aB" 1 7 "x"
      (buy_stock "ab" 4 6 "r1" none LedgerState.fresh).2).1.isOk = true := by
  constructor
  · exact (C9_ticker_normalization.2.2 LedgerState.fresh "ab" "Ab" 4 6 2 3
      "r1" "r2" none none (by decide) (by decide)
      (by show (4 : ℚ) * 6 ≤ 10000; norm_num)
      (by show (2 : ℚ) * 3 ≤ 10000 - 4 * 6; norm_num)).1
  · exact (C9_ticker_normalization.2.2 LedgerState.fresh "ab" "aB" 4 6 2 3
      "r1" "r2" none none (by decide) (by decide)
      (by show (4 : ℚ) * 6 ≤ 10000; norm_num)
      (by show (2 : ℚ) * 3 ≤ 10000 - 4 * 6; norm_num)).2 1 7 "x"
      (by norm_num)

/-!
## C4 — budget-constrained order sizing
-/

theorem reductionGo_of_le (budget : ℚ) (fuel : ℕ) (rs : List BuyRec)
    (h : totalCost rs ≤ budget) : reductionGo budget fuel rs = (rs, 0) := by
  cases fuel with
  | zero => simp only [reductionGo]; rw [if_pos h]
  | succ f => simp only [reductionGo]; rw [if_pos h]

theorem reductionGo_of_exhausted (budget : ℚ) (fuel : ℕ) (rs : List BuyRec)
    (h1 : ¬ totalCost rs ≤ budget) (h2 : anyPositive rs = false) :
    reductionGo budget fuel rs = (rs, 0) := by
  cases fuel with
  | zero => simp only [reductionGo]; rw [if_neg h1, if_pos h2]
  | succ f => simp only [reductionGo]; rw [if_neg h1, if_pos h2]

theorem reductionGo_zero_step (budget : ℚ) (rs : List BuyRec)
    (h1 : ¬ totalCost rs ≤ budget) (h2 : anyPositive rs = true) :
    reductionGo budget 0 rs = (reduceStep rs, 1) := by
  simp only [reductionGo]
  rw [if_neg h1, if_neg (by rw [h2]; exact Bool.true_eq_false ▸ by simp)]

theorem reductionGo_succ_step (budget : ℚ) (f : ℕ) (rs : List BuyRec)
    (h1 : ¬ totalCost rs ≤ budget) (h2 : anyPositive rs = true) :
    reductionGo budget (f + 1) rs =
      ((reductionGo budget f (reduceStep rs)).1,
        (reductionGo budget f (reduceStep rs)).2 + 1) := by
  simp only [reductionGo]
  rw [if_neg h1, if_neg (by rw [h2]; exact Bool.true_eq_false ▸ by simp)]

theorem reduceStep_of_all_pos (rs : List BuyRec)
    (hpos : ∀ r ∈ rs, 1 ≤ r.quantity) : reduceStep rs = decAll 1 rs := by
  induction rs with
  | nil => rfl
  | cons r rest ih =>
      have hr : 0 < r.quantity := hpos r (List.mem_cons_self r rest)
      simp only [reduceStep, decAll, List.map_cons] at ih ⊢
      rw [if_pos hr]
      refine congrArg₂ List.cons (by norm_num) ?_
      exact ih fun a ha => hpos a (List.mem_cons_of_mem r ha)

theorem decAll_comp (m : ℕ) (rs : List BuyRec) :
    decAll m (decAll 1 rs) = decAll (m + 1) rs := by
  induction rs with
  | nil => rfl
  | cons r rest ih =>
      simp only [decAll, List.map_cons] at ih ⊢
      refine congrArg₂ List.cons ?_ ih
      refine congrArg (BuyRec.mk r.ticker r.price) ?_
      push_cast
      ring

theorem priceSum_decAll (n : ℕ) (rs : List BuyRec) :
    priceSum (decAll n rs) = priceSum rs := by
  induction rs with
  | nil => rfl
  | cons r rest ih =>
      simp only [priceSum, decAll, List.map_cons, List.sum_cons] at ih ⊢
      rw [ih]

theorem totalCost_decAll (n : ℕ) (rs : List BuyRec) :
    totalCost (decAll n rs) = totalCost rs - n * priceSum rs := by
  induction rs with
  | nil => simp [totalCost, decAll, priceSum]
  | cons r rest ih =>
      simp only [totalCost, decAll, priceSum, List.map_cons, List.sum_cons]
        at ih ⊢
      rw [ih]
      simp only [recCost]
      push_cast
      ring

theorem decAll_quantity (n : ℕ) (rs : List BuyRec) (b : ℤ)
    (h : ∀ r ∈ rs, b + n ≤ r.quantity) :
    ∀ r ∈ decAll n rs, b ≤ r.quantity := by
  intro r' hm
  obtain ⟨r, hr, heq⟩ := List.mem_map.mp hm
  have := h r hr
  rw [← heq]
  simp only
  omega

theorem anyPositive_of_all_pos (rs : List BuyRec) (hne : rs ≠ [])
    (hpos : ∀ r ∈ rs, 1 ≤ r.quantity) : anyPositive rs = true := by
  obtain ⟨r, hr⟩ := List.exists_mem_of_ne_nil rs hne
  refine List.any_eq_true.mpr ⟨r, hr, ?_⟩
  exact decide_eq_true (hpos r hr)

theorem decAll_ne_nil (n : ℕ) (rs : List BuyRec) (hne : rs ≠ []) :
    decAll n rs ≠ [] := by
  simp [decAll, hne]

theorem decAll_zero (rs : List BuyRec) : decAll 0 rs = rs := by
  induction rs with
  | nil => rfl
  | cons r rest ih =>
      simp only [decAll, List.map_cons] at ih ⊢
      refine congrArg₂ List.cons ?_ ih
      exact congrArg (BuyRec.mk r.ticker r.price) (by push_cast; ring)

/-- A run of the reduction loop in which every order stays positive until
the batch total first drops to the budget: exactly `n` uniform passes run
and every order has been decremented `n` times. -/
theorem reductionGo_uniform (budget : ℚ) :
    ∀ (n fuel : ℕ) (rs : List BuyRec), rs ≠ [] → n ≤ fuel + 1 →
    (∀ r ∈ rs, (n : ℤ) ≤ r.quantity) →
    (∀ k : ℕ, k < n → budget < totalCost rs - k * priceSum rs) →
    totalCost rs - n * priceSum rs ≤ budget →
    reductionGo budget fuel rs = (decAll n rs, n) := by
  intro n
  induction n with
  | zero =>
      intro fuel rs _ _ _ _ hfin
      rw [Nat.cast_zero, zero_mul, sub_zero] at hfin
      rw [reductionGo_of_le budget fuel rs hfin, decAll_zero]
  | succ m ih =>
      intro fuel rs hne hle hqty hlo hfin
      have hq1 : ∀ r ∈ rs, 1 ≤ r.quantity := by
        intro r hr
        have := hqty r hr
        omega
      have h1 : ¬ totalCost rs ≤ budget := by
        have h0 := hlo 0 (Nat.succ_pos m)
        rw [Nat.cast_zero, zero_mul, sub_zero] at h0
        exact not_le.mpr h0
      have h2 : anyPositive rs = true := anyPositive_of_all_pos rs hne hq1
      have hstep : reduceStep rs = decAll 1 rs := reduceStep_of_all_pos rs hq1
      have hshift : ∀ j : ℕ,
          totalCost (decAll 1 rs) - j * priceSum (decAll 1 rs) =
          totalCost rs - (j + 1 : ℕ) * priceSum rs := by
        intro j
        rw [totalCost_decAll, priceSum_decAll]
        push_cast
        ring
      cases fuel with
      | zero =>
          have hm0 : m = 0 := Nat.le_zero.mp (Nat.succ_le_succ_iff.mp hle)
          subst hm0
          rw [reductionGo_zero_step budget rs h1 h2, hstep]
      | succ f =>
          rw [reductionGo_succ_step budget f rs h1 h2, hstep]
          have ihz := ih f (decAll 1 rs) (decAll_ne_nil 1 rs hne)
            (Nat.succ_le_succ_iff.mp hle)
            (decAll_quantity 1 rs (m : ℤ) (by intro r hr; have := hqty r hr; omega))
            (by intro k hk
                rw [hshift k]
                exact hlo (k + 1) (Nat.succ_lt_succ hk))
            (by rw [hshift m]; exact_mod_cast hfin)
          rw [ihz, decAll_comp]

/-- A run of the reduction loop that exhausts the round cap: with `fuel`
remaining rounds allowed after the first, every order large enough, and the
budget never reached, exactly `fuel + 1` passes run. -/
theorem reductionGo_cap (budget : ℚ) :
    ∀ (fuel : ℕ) (rs : List BuyRec), rs ≠ [] →
    (∀ r ∈ rs, (fuel : ℤ) + 1 ≤ r.quantity) →
    (∀ k : ℕ, k ≤ fuel → budget < totalCost rs - k * priceSum rs) →
    reductionGo budget fuel rs = (decAll (fuel + 1) rs, fuel + 1) := by
  intro fuel
  induction fuel with
  | zero =>
      intro rs hne hqty hlo
      have hq1 : ∀ r ∈ rs, 1 ≤ r.quantity := by
        intro r hr; have := hqty r hr; omega
      have h1 : ¬ totalCost rs ≤ budget := by
        have h0 := hlo 0 (Nat.le_refl 0)
        rw [Nat.cast_zero, zero_mul, sub_zero] at h0
        exact not_le.mpr h0
      rw [reductionGo_zero_step budget rs h1
        (anyPositive_of_all_pos rs hne hq1)]
      rw [reduceStep_of_all_pos rs hq1]
  | succ f ih =>
      intro rs hne hqty hlo
      have hq1 : ∀ r ∈ rs, 1 ≤ r.quantity := by
        intro r hr; have := hqty r hr; omega
      have h1 : ¬ totalCost rs ≤ budget := by
        have h0 := hlo 0 (Nat.zero_le _)
        rw [Nat.cast_zero, zero_mul, sub_zero] at h0
        exact not_le.mpr h0
      rw [reductionGo_succ_step budget f rs h1
        (anyPositive_of_all_pos rs hne hq1)]
      rw [reduceStep_of_all_pos rs hq1]
      have hshift : ∀ j : ℕ,
          totalCost (decAll 1 rs) - j * priceSum (decAll 1 rs) =
          totalCost rs - (j + 1 : ℕ) * priceSum rs := by
        intro j
        rw [totalCost_decAll, priceSum_decAll]
        push_cast
        ring
      have ihz := ih (decAll 1 rs) (decAll_ne_nil 1 rs hne)
        (decAll_quantity 1 rs ((f : ℤ) + 1) (by intro r hr; have := hqty r hr; omega))
        (by intro k hk
            rw [hshift k]
            exact hlo (k + 1) (Nat.succ_le_succ hk))
      rw [ihz, decAll_comp]

/-- After the loop, either the budget was reached, or no positive order
remains, or the safety cap fired after `fuel + 1` passes. -/
theorem reductionGo_post (budget : ℚ) :
    ∀ (fuel : ℕ) (rs : List BuyRec),
      totalCost (reductionGo budget fuel rs).1 ≤ budget ∨
      anyPositive (reductionGo budget fuel rs).1 = false ∨
      (reductionGo budget fuel rs).2 = fuel + 1 := by
  intro fuel
  induction fuel with
  | zero =>
      intro rs
      by_cases h1 : totalCost rs ≤ budget
      · rw [reductionGo_of_le budget 0 rs h1]; exact Or.inl h1
      · by_cases h2 : anyPositive rs = false
        · rw [reductionGo_of_exhausted budget 0 rs h1 h2]
          exact Or.inr (Or.inl h2)
        · rw [reductionGo_zero_step budget rs h1 (by revert h2; cases anyPositive rs <;> simp)]
          exact Or.inr (Or.inr rfl)
  | succ f ih =>
      intro rs
      by_cases h1 : totalCost rs ≤ budget
      · rw [reductionGo_of_le budget (f + 1) rs h1]; exact Or.inl h1
      · by_cases h2 : anyPositive rs = false
        · rw [reductionGo_of_exhausted budget (f + 1) rs h1 h2]
          exact Or.inr (Or.inl h2)
        · rw [reductionGo_succ_step budget f rs h1 (by revert h2; cases anyPositive rs <;> simp)]
          rcases ih (reduceStep rs) with ha | hb | hc
          · exact Or.inl ha
          · exact Or.inr (Or.inl hb)
          · exact Or.inr (Or.inr (by rw [hc]))

theorem apply_share_reduction_of_over (recs : List BuyRec)
    (available_cash : ℚ) (hne : recs ≠ [])
    (hover : available_cash - 500 < totalCost recs) :
    apply_share_reduction_logic recs available_cash =
      { recs := (reductionGo (available_cash - 500) 1000 recs).1.filter
          (fun r => 0 < r.quantity),
        reduced := true,
        original_total_cost := totalCost recs,
        final_total_cost :=
          totalCost (reductionGo (available_cash - 500) 1000 recs).1,
        total_savings := totalCost recs -
          totalCost (reductionGo (available_cash - 500) 1000 recs).1,
        reduction_rounds := (reductionGo (available_cash - 500) 1000 recs).2 } := by
  simp only [apply_share_reduction_logic]
  rw [if_neg hne, if_neg (not_le.mpr hover)]

theorem filter_pos_of_any_false (rs : List BuyRec)
    (h : anyPositive rs = false) :
    rs.filter (fun r => 0 < r.quantity) = [] := by
  refine List.filter_eq_nil_iff.mpr ?_
  intro r hr
  have := List.any_eq_false.mp h r hr
  simpa using this

/-- C4 counterexample: the reduction loop carries a hard 1000-round safety
cap (`if reduction_rounds > 1000: break`), so the claim's "until total ≤
availableCash − buffer or all quantities reach 0" fails.  One order of
1002 shares at $1 with cash $500 (budget $0) stops after 1001 passes with
one share left: the final total cost is $1, still above the $0 budget, and
the surviving order has positive quantity. -/
theorem C4_counterexample :
    (apply_share_reduction_logic
      [{ ticker := "A", price := 1, quantity := 1002 }] 500).final_total_cost
      = 1 ∧
    ¬ ((apply_share_reduction_logic
      [{ ticker := "A", price := 1, quantity := 1002 }] 500).final_total_cost
      ≤ 500 - 500) ∧
    (apply_share_reduction_logic
      [{ ticker := "A", price := 1, quantity := 1002 }] 500).recs =
      [{ ticker := "A", price := 1, quantity := 1 }] := by
  have htc : totalCost [{ ticker := "A", price := 1, quantity := 1002 }]
      = 1002 := by
    simp [totalCost, recCost]
  have hps : priceSum [{ ticker := "A", price := 1, quantity := 1002 }]
      = 1 := by
    simp [priceSum]
  rw [apply_share_reduction_of_over _ 500 (by simp) (by rw [htc]; norm_num)]
  have hcap := reductionGo_cap ((500 : ℚ) - 500) 1000
    [{ ticker := "A", price := 1, quantity := 1002 }] (by simp)
    (by intro r hr
        simp only [List.mem_singleton] at hr
        rw [hr]
        norm_num)
    (by intro k hk
        rw [htc, hps]
        have hk' : (k : ℚ) ≤ 1000 := by exact_mod_cast hk
        linarith)
  rw [hcap]
  have hdec : decAll (1000 + 1) [{ ticker := "A", price := 1, quantity := 1002 }]
      = [{ ticker := "A", price := 1, quantity := 1 }] := by
    simp only [decAll, List.map_cons, List.map_nil]
    norm_num
  rw [hdec]
  refine ⟨?_, ?_, ?_⟩
  · show totalCost [{ ticker := "A", price := 1, quantity := 1 }] = 1
    simp [totalCost, recCost]
  · show ¬ totalCost [{ ticker := "A", price := 1, quantity := 1 }] ≤ 500 - 500
    simp only [totalCost, recCost, List.map_cons, List.map_nil, List.sum_cons,
      List.sum_nil]
    norm_num
  · show List.filter (fun r : BuyRec => 0 < r.quantity)
      [{ ticker := "A", price := 1, quantity := 1 }] =
      [{ ticker := "A", price := 1, quantity := 1 }]
    simp

/-- C4 (amended): when a batch's total cost exceeds `availableCash - 500`,
the order sizer marks the reduction applied, reports
`savings = originalTotalCost - finalTotalCost` exactly, keeps only orders
with positive quantity, and its per-pass decrement loop runs until the
total is within budget or every quantity has reached 0 — or, the amendment,
the 1000-round safety cap fires (1001 passes) with the reduction left
incomplete; on fit(orders {ABC:100@50, DEF:90@50, HIJ:80@50}, cash=10000,
buffer=500) the final total cost is within $9500. -/
theorem C4_order_sizer (recs : List BuyRec) (available_cash : ℚ)
    (hne : recs ≠ []) (hover : available_cash - 500 < totalCost recs) :
    (apply_share_reduction_logic recs available_cash).reduced = true ∧
    (apply_share_reduction_logic recs available_cash).original_total_cost =
      totalCost recs ∧
    (apply_share_reduction_logic recs available_cash).total_savings =
      (apply_share_reduction_logic recs available_cash).original_total_cost -
      (apply_share_reduction_logic recs available_cash).final_total_cost ∧
    (∀ r ∈ (apply_share_reduction_logic recs available_cash).recs,
      0 < r.quantity) ∧
    ((apply_share_reduction_logic recs available_cash).final_total_cost ≤
        available_cash - 500 ∨
      (apply_share_reduction_logic recs available_cash).recs = [] ∨
      (apply_share_reduction_logic recs available_cash).reduction_rounds
        = 1001) ∧
    (apply_share_reduction_logic
      [{ ticker := "ABC", price := 50, quantity := 100 },
       { ticker := "DEF", price := 50, quantity := 90 },
       { ticker := "HIJ", price := 50, quantity := 80 }]
      10000).final_total_cost ≤ 9500 := by
  rw [apply_share_reduction_of_over recs available_cash hne hover]
  refine ⟨rfl, rfl, rfl, ?_, ?_, ?_⟩
  · intro r hr
    exact of_decide_eq_true (List.mem_filter.mp hr).2
  · rcases reductionGo_post (available_cash - 500) 1000 recs with ha | hb | hc
    · exact Or.inl ha
    · exact Or.inr (Or.inl (filter_pos_of_any_false _ hb))
    · exact Or.inr (Or.inr hc)
  · have hne3 : ([{ ticker := "ABC", price := 50, quantity := 100 },
        { ticker := "DEF", price := 50, quantity := 90 },
        { ticker := "HIJ", price := 50, quantity := 80 }] : List BuyRec)
        ≠ [] := by simp
    have htc : totalCost [{ ticker := "ABC", price := 50, quantity := 100 },
        { ticker := "DEF", price := 50, quantity := 90 },
        { ticker := "HIJ", price := 50, quantity := 80 }] = 13500 := by
      simp [totalCost, recCost]
      norm_num
    have hps : priceSum [{ ticker := "ABC", price := 50, quantity := 100 },
        { ticker := "DEF", price := 50, quantity := 90 },
        { ticker := "HIJ", price := 50, quantity := 80 }] = 150 := by
      simp [priceSum]
      norm_num
    rw [apply_share_reduction_of_over _ 10000 hne3 (by rw [htc]; norm_num)]
    have hred := reductionGo_uniform ((10000 : ℚ) - 500) 27 1000
      [{ ticker := "ABC", price := 50, quantity := 100 },
       { ticker := "DEF", price := 50, quantity := 90 },
       { ticker := "HIJ", price := 50, quantity := 80 }] hne3 (by norm_num)
      (by intro r hr
          simp only [List.mem_cons, List.mem_singleton, List.not_mem_nil,
            or_false] at hr
          rcases hr with rfl | rfl | rfl <;> norm_num)
      (by intro k hk
          rw [htc, hps]
          have hk' : (k : ℚ) ≤ 26 := by exact_mod_cast Nat.lt_succ_iff.mp hk
          linarith)
      (by rw [htc, hps]; push_cast; norm_num)
    rw [hred]
    show totalCost (decAll 27
      [{ ticker := "ABC", price := 50, quantity := 100 },
       { ticker := "DEF", price := 50, quantity := 90 },
       { ticker := "HIJ", price := 50, quantity := 80 }]) ≤ 9500
    rw [totalCost_decAll, htc, hps]
    push_cast
    norm_num

/-- C4 witness: the theorem evaluated on the spec's own fit example. -/
theorem C4_order_sizer_witness :
    (apply_share_reduction_logic
      [{ ticker := "ABC", price := 50, quantity := 100 },
       { ticker := "DEF", price := 50, quantity := 90 },
       { ticker := "HIJ", price := 50, quantity := 80 }] 10000).reduced
      = true ∧
    (apply_share_reduction_logic
      [{ ticker := "ABC", price := 50, quantity := 100 },
       { ticker := "DEF", price := 50, quantity := 90 },
       { ticker := "HIJ", price := 50, quantity := 80 }] 10000).final_total_cost
      ≤ 9500 := by
  have htc : totalCost [{ ticker := "ABC", price := 50, quantity := 100 },
      { ticker := "DEF", price := 50, quantity := 90 },
      { ticker := "HIJ", price := 50, quantity := 80 }] = 13500 := by
    simp [totalCost, recCost]
    norm_num
  have h := C4_order_sizer
    [{ ticker := "ABC", price := 50, quantity := 100 },
     { ticker := "DEF", price := 50, quantity := 90 },
     { ticker := "HIJ", price := 50, quantity := 80 }] 10000
    (by simp) (by rw [htc]; norm_num)
  exact ⟨h.1, h.2.2.2.2.2⟩

/-!
## C5 — stop-loss evaluation
-/

/-- Evaluation of one stop-loss pass over a single-holding ledger whose
holding has a recorded stop price and whose quote is at or below it: the
ledger sell runs for `int(quantity)` shares at the stop price. -/
theorem check_stop_losses_single (tick : String) (q avg mv sp cash cp : ℚ)
    (txns : List Txn) (quotes : String → Option ℚ)
    (hup : pyUpper tick = tick)
    (hmap : stop_loss_map txns tick = some sp)
    (hcp : quotes tick = some cp) (hle : cp ≤ sp) :
    check_stop_losses quotes
      { cash := some cash,
        holdings := [{ ticker := tick, quantity := q, average_cost := avg,
                       total_market_value := mv }],
        transactions := txns } =
      ({ cash := some (cash + (⌊q⌋ : ℚ) * sp),
         holdings := update_holdings_after_sell
           [{ ticker := tick, quantity := q, average_cost := avg,
              total_market_value := mv }] tick ((⌊q⌋ : ℤ) : ℚ),
         transactions := txns ++
           [Txn.sell tick ((⌊q⌋ : ℤ) : ℚ) sp
             (((⌊q⌋ : ℤ) : ℚ) * sp - ((⌊q⌋ : ℤ) : ℚ) * avg)
             "Stop Loss Triggered"] },
       [{ ticker := tick,
          gain_loss := ((⌊q⌋ : ℤ) : ℚ) * sp - ((⌊q⌋ : ℤ) : ℚ) * avg }]) := by
  have hfind : findHolding
      [{ ticker := tick, quantity := q, average_cost := avg,
         total_market_value := mv }] (pyUpper tick) =
      some { ticker := tick, quantity := q, average_cost := avg,
             total_market_value := mv } := by
    rw [hup]
    exact findHolding_cons_self _ _ rfl
  have hsell := sell_stock_of_found
    { cash := some cash,
      holdings := [{ ticker := tick, quantity := q, average_cost := avg,
                     total_market_value := mv }],
      transactions := txns } tick ((⌊q⌋ : ℤ) : ℚ) sp "Stop Loss Triggered"
    { ticker := tick, quantity := q, average_cost := avg,
      total_market_value := mv } hfind (Int.floor_le q)
  simp only [check_stop_losses, List.foldl_cons, List.foldl_nil]
  simp only [hmap, hcp]
  rw [if_pos hle]
  simp only [hsell, hup]
  rfl

/-- C5 (amended): for a holding with a recorded stop price, the evaluator
sells exactly when the current price is at or below the stop (equality
included), the sell executes at the recorded stop price rather than the
observed price, and — the amendment — for `int(quantity)` shares, Python's
`int()` truncation of the holding quantity, so
`gain_loss = ⌊quantity⌋*stopPrice − ⌊quantity⌋*average_cost` (equal to the
claim's formula whenever the quantity is a whole number, but not for
fractional holdings); a missing quote skips the ticker without selling,
and a price above the stop does not trigger. -/
theorem C5_stop_loss (tick : String) (q avg mv sp cash : ℚ)
    (txns : List Txn) (quotes : String → Option ℚ)
    (hup : pyUpper tick = tick)
    (hmap : stop_loss_map txns tick = some sp) :
    (∀ cp, quotes tick = some cp → cp ≤ sp →
      check_stop_losses quotes
        { cash := some cash,
          holdings := [{ ticker := tick, quantity := q, average_cost := avg,
                         total_market_value := mv }],
          transactions := txns } =
        ({ cash := some (cash + (⌊q⌋ : ℚ) * sp),
           holdings := if q - (⌊q⌋ : ℚ) ≤ 0 then []
             else [{ ticker := tick, quantity := q - (⌊q⌋ : ℚ),
                     average_cost := avg,
                     total_market_value := (q - (⌊q⌋ : ℚ)) * avg }],
           transactions := txns ++
             [Txn.sell tick (⌊q⌋ : ℚ) sp
               ((⌊q⌋ : ℚ) * sp - (⌊q⌋ : ℚ) * avg) "Stop Loss Triggered"] },
         [{ ticker := tick,
            gain_loss := (⌊q⌋ : ℚ) * sp - (⌊q⌋ : ℚ) * avg }])) ∧
    (∀ cp, quotes tick = some cp → sp < cp →
      check_stop_losses quotes
        { cash := some cash,
          holdings := [{ ticker := tick, quantity := q, average_cost := avg,
                         total_market_value := mv }],
          transactions := txns } =
        ({ cash := some cash,
           holdings := [{ ticker := tick, quantity := q, average_cost := avg,
                          total_market_value := mv }],
           transactions := txns }, [])) ∧
    (quotes tick = none →
      check_stop_losses quotes
        { cash := some cash,
          holdings := [{ ticker := tick, quantity := q, average_cost := avg,
                         total_market_value := mv }],
          transactions := txns } =
        ({ cash := some cash,
           holdings := [{ ticker := tick, quantity := q, average_cost := avg,
                          total_market_value := mv }],
           transactions := txns }, [])) := by
  refine ⟨?_, ?_, ?_⟩
  · intro cp hcp hle
    rw [check_stop_losses_single tick q avg mv sp cash cp txns quotes
      hup hmap hcp hle]
    simp only [update_holdings_after_sell, eq_self_iff_true, if_true]
  · intro cp hcp hlt
    simp only [check_stop_losses, List.foldl_cons, List.foldl_nil]
    simp only [hmap, hcp]
    rw [if_neg (not_le.mpr hlt)]
  · intro hcp
    simp only [check_stop_losses, List.foldl_cons, List.foldl_nil]
    simp only [hmap, hcp]

/-- C5 counterexample: the claim's `gain_loss = quantity*stopPrice −
quantity*average_cost` fails for a fractional holding because the scheduler
sells `int(quantity)` shares.  A holding of 1.5 shares at average cost $5
with stop $42.50→ here $10 and current price $10 sells 1 share: the
recorded gain/loss is $5, not 1.5*10 − 1.5*5 = $7.50. -/
theorem C5_counterexample :
    (check_stop_losses (fun t => if t = "XYZ" then some 10 else none)
      { cash := some 1000,
        holdings := [{ ticker := "XYZ", quantity := 3 / 2, average_cost := 5,
                       total_market_value := 15 / 2 }],
        transactions := [Txn.buy "XYZ" (3 / 2) 5 (15 / 2) "r" (some 10)] }).2 =
      [{ ticker := "XYZ", gain_loss := 5 }] ∧
    ¬ ((5 : ℚ) = 3 / 2 * 10 - 3 / 2 * 5) := by
  constructor
  · have h := check_stop_losses_single "XYZ" (3 / 2) 5 (15 / 2) 10 1000 10
      [Txn.buy "XYZ" (3 / 2) 5 (15 / 2) "r" (some 10)]
      (fun t => if t = "XYZ" then some 10 else none)
      (by decide) (by rfl) (by simp) (le_refl 10)
    rw [h]
    norm_num
  · norm_num

/-- C5 witness: a whole-number holding (4 shares at $5, stop $10, current
price exactly $10) triggers and sells all 4 shares at the stop price. -/
theorem C5_stop_loss_witness :
    check_stop_losses (fun t => if t = "AB" then some 10 else none)
      { cash := some 1000,
        holdings := [{ ticker := "AB", quantity := 4, average_cost := 5,
                       total_market_value := 20 }],
        transactions := [Txn.buy "AB" 4 5 20 "r" (some 10)] } =
      ({ cash := some (1000 + (⌊(4 : ℚ)⌋ : ℚ) * 10),
         holdings := if (4 : ℚ) - (⌊(4 : ℚ)⌋ : ℚ) ≤ 0 then []
           else [{ ticker := "AB", quantity := 4 - (⌊(4 : ℚ)⌋ : ℚ),
                   average_cost := 5,
                   total_market_value := (4 - (⌊(4 : ℚ)⌋ : ℚ)) * 5 }],
         transactions := [Txn.buy "AB" 4 5 20 "r" (some 10)] ++
           [Txn.sell "AB" (⌊(4 : ℚ)⌋ : ℚ) 10
             ((⌊(4 : ℚ)⌋ : ℚ) * 10 - (⌊(4 : ℚ)⌋ : ℚ) * 5)
             "Stop Loss Triggered"] },
       [{ ticker := "AB",
          gain_loss := (⌊(4 : ℚ)⌋ : ℚ) * 10 - (⌊(4 : ℚ)⌋ : ℚ) * 5 }]) :=
  (C5_stop_loss "AB" 4 5 20 10 1000 [Txn.buy "AB" 4 5 20 "r" (some 10)]
    (fun t => if t = "AB" then some 10 else none)
    (by decide) (by rfl)).1 10 (by simp) (le_refl 10)

/-!
## C6 — quote cache
-/

/-- C6: with `forceRefresh=false` and an entry fetched less than one hour
ago, `get_cached_quote` returns that cached entry and does not invoke the
resolver; with `forceRefresh=true` the resolver is always invoked,
whatever the cache holds; and whenever the resolver is consulted and
fails, the call returns NotFound with the cache entry set unmodified. -/
theorem C6_quote_cache (cache : String → Option CacheEntry) (now : ℚ)
    (resolver : Option (ℚ × String)) (symbol : String) :
    (∀ e, cache symbol = some e → now - e.timestamp < 3600 →
      get_cached_quote cache now resolver symbol false =
        (some (QuoteResult.cachedHit e.current_price e.timestamp e.api_source),
          cache, false)) ∧
    ((get_cached_quote cache now resolver symbol true).2.2 = true) ∧
    (∀ fr : Bool, resolver = none →
      (get_cached_quote cache now resolver symbol fr).2.2 = true →
      get_cached_quote cache now resolver symbol fr =
        (none, cache, true)) := by
  refine ⟨?_, ?_, ?_⟩
  · intro e he hfresh
    simp only [get_cached_quote, Bool.false_eq_true, if_false, he]
    rw [if_pos hfresh]
  · simp only [get_cached_quote, if_pos rfl]
    cases resolver with
    | none => rfl
    | some pr => rfl
  · intro fr hres hinv
    subst hres
    cases fr with
    | true =>
        simp only [get_cached_quote, eq_self_iff_true, if_true]
    | false =>
        cases hcs : cache symbol with
        | none => simp only [get_cached_quote, Bool.false_eq_true, if_false, hcs]
        | some e =>
            by_cases hfresh : now - e.timestamp < 3600
            · have hhit : get_cached_quote cache now none symbol false =
                  (some (QuoteResult.cachedHit e.current_price e.timestamp
                    e.api_source), cache, false) := by
                simp only [get_cached_quote, Bool.false_eq_true, if_false, hcs]
                rw [if_pos hfresh]
              rw [hhit] at hinv
              exact absurd hinv (by simp)
            · simp only [get_cached_quote, Bool.false_eq_true, if_false, hcs]
              rw [if_neg hfresh]

/-- C6 witness: a fresh cached entry for "X" is returned untouched without
a resolve, and a failed resolve on an empty cache returns NotFound leaving
the cache as it was. -/
theorem C6_quote_cache_witness :
    get_cached_quote
      (fun t => if t = "X" then
        some { ticker := "X", current_price := 7, timestamp := 100,
               api_source := "yf" } else none)
      200 (some (9, "fh")) "X" false =
      (some (QuoteResult.cachedHit 7 100 "yf"),
        (fun t => if t = "X" then
          some { ticker := "X", current_price := 7, timestamp := 100,
                 api_source := "yf" } else none), false) ∧
    get_cached_quote (fun _ => none) 200 none "X" false =
      (none, (fun _ => none), true) := by
  constructor
  · exact (C6_quote_cache _ 200 (some (9, "fh")) "X").1
      { ticker := "X", current_price := 7, timestamp := 100,
        api_source := "yf" } (by simp) (by norm_num)
  · exact (C6_quote_cache (fun _ => none) 200 none "X").2.2 false rfl rfl

/-!
## C7 — quote resolver fallback
-/

/-- C7 counterexample: `get_stock_quote` shuffles the adapter list with
`random.shuffle` before walking it, so the registered order is not the
try order and the third adapter can be invoked first.  The order
`[C, A, B]` is a permutation of the registered `[A, B, C]` (so it is a
reachable shuffle outcome), and on it adapter C *is* invoked,
contradicting "adapter C is never invoked". -/
theorem C7_counterexample :
    List.Perm
      [{ name := "C", result := none }, { name := "A", result := none },
       { name := "B", result := some (2469 / 20) }]
      [({ name := "A", result := none } : Adapter),
       { name := "B", result := some (2469 / 20) },
       { name := "C", result := none }] ∧
    "C" ∈ (get_stock_quote
      [{ name := "C", result := none }, { name := "A", result := none },
       { name := "B", result := some (2469 / 20) }]).2 := by
  constructor
  · exact @List.perm_append_comm Adapter
      [{ name := "C", result := none }]
      [{ name := "A", result := none },
       { name := "B", result := some (2469 / 20) }]
  · exact List.mem_cons_self "C" _

/-- C7 (amended): over whatever post-shuffle order the walk receives, the
resolver returns the first successful adapter's quote tagged with that
adapter's name, invokes exactly the failing prefix plus that adapter
(adapters after the first success are never invoked), and returns NotFound
exactly when every adapter in the order fails; when the shuffle happens to
produce the registered order `[A(fails), B(succeeds@123.45), C]`, the
result is 123.45 tagged "B" and C is not invoked. -/
theorem C7_quote_resolver (order : List Adapter) :
    ((get_stock_quote order).1 = none ↔ ∀ a ∈ order, a.result = none) ∧
    (∀ (price : ℚ) (nm : String),
      (get_stock_quote order).1 = some (price, nm) →
      ∃ pre a post, order = pre ++ a :: post ∧
        (∀ b ∈ pre, b.result = none) ∧
        a.result = some price ∧ a.name = nm ∧
        (get_stock_quote order).2 = pre.map Adapter.name ++ [a.name]) ∧
    get_stock_quote
      [{ name := "A", result := none },
       { name := "B", result := some (2469 / 20) },
       { name := "C", result := none }] =
      (some (2469 / 20, "B"), ["A", "B"]) := by
  refine ⟨?_, ?_, rfl⟩
  · induction order with
    | nil => simp [get_stock_quote]
    | cons a rest ih =>
        cases ha : a.result with
        | some p => simp [get_stock_quote, ha]
        | none => simp [get_stock_quote, ha, ih]
  · induction order with
    | nil =>
        intro price nm h
        simp [get_stock_quote] at h
    | cons a rest ih =>
        intro price nm h
        cases ha : a.result with
        | some p =>
            have hstep : get_stock_quote (a :: rest) =
                (some (p, a.name), [a.name]) := by
              simp [get_stock_quote, ha]
            rw [hstep] at h
            simp only [Option.some.injEq, Prod.mk.injEq] at h
            refine ⟨[], a, rest, rfl, by simp, ?_, h.2, ?_⟩
            · rw [ha, h.1]
            · rw [hstep]
              rfl
        | none =>
            have hstep : get_stock_quote (a :: rest) =
                ((get_stock_quote rest).1,
                  a.name :: (get_stock_quote rest).2) := by
              simp [get_stock_quote, ha]
            rw [hstep] at h
            obtain ⟨pre, b, post, heq, hpre, hres, hname, htried⟩ :=
              ih price nm h
            refine ⟨a :: pre, b, post, by rw [List.cons_append, heq], ?_,
              hres, hname, ?_⟩
            · intro x hx
              rcases List.mem_cons.mp hx with hxa | hxp
              · rw [hxa]; exact ha
              · exact hpre x hxp
            · rw [hstep]
              show a.name :: (get_stock_quote rest).2 = _
              rw [htried, List.map_cons, List.cons_append]

/-- C7 witness: the resolver evaluated on the registered order with A
failing and B succeeding at 123.45. -/
theorem C7_quote_resolver_witness :
    get_stock_quote
      [{ name := "A", result := none },
       { name := "B", result := some (2469 / 20) },
       { name := "C", result := none }] =
      (some (2469 / 20, "B"), ["A", "B"]) :=
  (C7_quote_resolver []).2.2

end Microcap
